import Mathlib

/-!
Verification of the js-file-monitor repository: a shallow embedding of its
diff engine (scripts/compare_changes.py), fingerprint store API (api/app.py),
asset extractor and crawler (scripts/extract_js.py), and snapshot selection,
together with proofs and refutations of the specified properties.

Machine integers do not occur; Python strings are modelled as Lean `String`,
with the Python string methods re-implemented over `String.data` so that all
definitions evaluate inside the kernel.  Timestamps (`datetime.now()`) are
modelled as `Int` seconds; `timedelta(days = 7)` is `7 * 86400` seconds.
-/

/-! ## Python string primitives -/

/-- Python `s.startswith(pat)`. -/
def pyStartsWith (s pat : String) : Bool := decide (pat.data <+: s.data)

/-- Python `s.endswith(pat)`. -/
def pyEndsWith (s pat : String) : Bool := decide (pat.data <:+ s.data)

/-- Python `pat in s` (substring containment). -/
def pyContains (s pat : String) : Bool := decide (pat.data <:+: s.data)

/-- ASCII lower-casing of one character, as Python `str.lower` acts on the
character set appearing in URLs. -/
def lowerChar (c : Char) : Char :=
  if 'A' ≤ c ∧ c ≤ 'Z' then Char.ofNat (c.toNat + 32) else c

/-- Python `s.lower()` (restricted to ASCII, which is all the source feeds it). -/
def pyLower (s : String) : String := ⟨s.data.map lowerChar⟩

/-! ## Python dict built by iterated insertion

`compare_changes.compare_files` and `app.check_new_files` build dicts by
comprehension over a list; insertion keeps the first occurrence's position and
the last occurrence's value.  `pyDict` reproduces that construction. -/

/-- One Python dict assignment `d[k] = v`: overwrite in place if the key is
present, otherwise append. -/
def dictUpsert {α : Type} (d : List (String × α)) (k : String) (v : α) :
    List (String × α) :=
  if d.any (fun p => decide (p.1 = k)) then
    d.map (fun p => if p.1 = k then (k, v) else p)
  else d ++ [(k, v)]

/-- Python dict comprehension `{key x : x for x in xs}`. -/
def pyDict {α : Type} (key : α → String) (xs : List α) : List (String × α) :=
  xs.foldl (fun d x => dictUpsert d (key x) x) []

/-- Python dict lookup `d[k]` / `d.get(k)`. -/
def dictGet {α : Type} (d : List (String × α)) (k : String) : Option α :=
  (d.find? (fun p => decide (p.1 = k))).map Prod.snd

/-! ## Diff engine: `ChangeDetector.compare_files` -/

/-- One file record `{url, filename, hash}` as passed through the pipeline. -/
structure JSFile where
  url : String
  filename : String
  hash : String
deriving DecidableEq, Repr

/-- One entry of the `changed` list built by `compare_files`. -/
structure ChangedEntry where
  url : String
  old_hash : String
  new_hash : String
  filename : String
deriving DecidableEq, Repr

/-- Return value of `compare_files`. -/
structure DiffResult where
  added : List JSFile
  removed : List JSFile
  changed : List ChangedEntry
  total_old : Nat
  total_new : Nat
deriving DecidableEq, Repr

/-- The body of the `changed` loop of `compare_files`: for a `new_by_url`
entry, look its url up in `old_by_url` and report a change iff the hashes
differ. -/
def changeOf (old_by_url : List (String × JSFile)) (p : String × JSFile) :
    Option ChangedEntry :=
  match dictGet old_by_url p.1 with
  | some old_file =>
      if old_file.hash ≠ p.2.hash then
        some { url := p.1, old_hash := old_file.hash, new_hash := p.2.hash,
               filename := p.2.filename }
      else none
  | none => none

/-- `ChangeDetector.compare_files` from scripts/compare_changes.py: builds
`old_by_url` and `new_by_url` dicts, then classifies. -/
def compare_files (old_files new_files : List JSFile) : DiffResult :=
  let old_by_url := pyDict (fun f => f.url) old_files
  let new_by_url := pyDict (fun f => f.url) new_files
  let added := (new_by_url.filter (fun p => (dictGet old_by_url p.1).isNone)).map Prod.snd
  let removed := (old_by_url.filter (fun p => (dictGet new_by_url p.1).isNone)).map Prod.snd
  let changed := new_by_url.filterMap (changeOf old_by_url)
  { added := added, removed := removed, changed := changed,
    total_old := old_files.length, total_new := new_files.length }

/-- The URLs of an inventory, in order. -/
def urlsOf (fs : List JSFile) : List String := fs.map (fun f => f.url)

/-- The fingerprint an inventory records for a URL, if any. -/
def lookupHash (fs : List JSFile) (u : String) : Option String :=
  (fs.find? (fun f => decide (f.url = u))).map (fun f => f.hash)

/-- Exactly one of four alternatives holds. -/
def exactlyOne (a b c d : Prop) : Prop :=
  (a ∧ ¬b ∧ ¬c ∧ ¬d) ∨ (¬a ∧ b ∧ ¬c ∧ ¬d) ∨ (¬a ∧ ¬b ∧ c ∧ ¬d) ∨ (¬a ∧ ¬b ∧ ¬c ∧ d)

/-- The partition property claimed for the diff classification. -/
def DiffPartitionSpec (old_files new_files : List JSFile) : Prop :=
  (∀ f, f ∈ (compare_files old_files new_files).added ↔
      f ∈ new_files ∧ f.url ∉ urlsOf old_files) ∧
  (∀ f, f ∈ (compare_files old_files new_files).removed ↔
      f ∈ old_files ∧ f.url ∉ urlsOf new_files) ∧
  (∀ c, c ∈ (compare_files old_files new_files).changed ↔
      ∃ fo fn, fo ∈ old_files ∧ fn ∈ new_files ∧ fo.url = c.url ∧ fn.url = c.url ∧
        fo.hash ≠ fn.hash ∧ c.old_hash = fo.hash ∧ c.new_hash = fn.hash ∧
        c.filename = fn.filename) ∧
  (∀ u, ¬ (u ∈ (compare_files old_files new_files).added.map (fun f => f.url) ∧
           u ∈ (compare_files old_files new_files).removed.map (fun f => f.url))) ∧
  (∀ u, u ∈ urlsOf old_files ∨ u ∈ urlsOf new_files →
    exactlyOne
      (u ∈ (compare_files old_files new_files).added.map (fun f => f.url))
      (u ∈ (compare_files old_files new_files).removed.map (fun f => f.url))
      (u ∈ (compare_files old_files new_files).changed.map (fun c => c.url))
      (u ∈ urlsOf old_files ∧ u ∈ urlsOf new_files ∧
        lookupHash old_files u = lookupHash new_files u))

/-! ### Dict and find lemmas -/

theorem pyDict_go {α : Type} (key : α → String) :
    ∀ (xs : List α) (d : List (String × α)),
      (∀ x ∈ xs, d.any (fun p => decide (p.1 = key x)) = false) →
      (xs.map key).Nodup →
      xs.foldl (fun d x => dictUpsert d (key x) x) d = d ++ xs.map (fun x => (key x, x)) := by
  intro xs
  induction xs with
  | nil => intro d _ _; simp
  | cons x xs ih =>
    intro d hfree hnd
    have hx : d.any (fun p => decide (p.1 = key x)) = false :=
      hfree x (List.mem_cons_self x xs)
    have hstep : dictUpsert d (key x) x = d ++ [(key x, x)] := by
      unfold dictUpsert; rw [hx]; simp
    simp only [List.foldl_cons, hstep]
    rw [ih (d ++ [(key x, x)])]
    · simp
    · intro y hy
      rw [List.any_append]
      have h1 : d.any (fun p => decide (p.1 = key y)) = false :=
        hfree y (List.mem_cons_of_mem x hy)
      have h2 : (key x = key y) = False := by
        simp only [List.map_cons, List.nodup_cons] at hnd
        exact eq_false (fun h => hnd.1 (h ▸ List.mem_map_of_mem key hy))
      simp [h1, h2]
    · simp only [List.map_cons, List.nodup_cons] at hnd
      exact hnd.2

theorem pyDict_eq_map {α : Type} (key : α → String) (xs : List α)
    (hnd : (xs.map key).Nodup) :
    pyDict key xs = xs.map (fun x => (key x, x)) := by
  unfold pyDict
  rw [pyDict_go key xs [] (by simp) hnd]
  simp

theorem find?_eq_some_of_unique {α : Type} (p : α → Bool) {l : List α} {a : α}
    (ha : a ∈ l) (hpa : p a = true) (huniq : ∀ b ∈ l, p b = true → b = a) :
    l.find? p = some a := by
  induction l with
  | nil => cases ha
  | cons x l ih =>
    rw [List.find?_cons]
    by_cases hx : p x = true
    · have hxa : x = a := huniq x (List.mem_cons_self x l) hx
      subst hxa
      simp [hx]
    · have hax : a ∈ l := by
        rcases List.mem_cons.mp ha with h | h
        · exact absurd (h ▸ hpa) hx
        · exact h
      simp only [Bool.not_eq_true] at hx
      simp only [hx]
      exact ih hax (fun b hb hpb => huniq b (List.mem_cons_of_mem x hb) hpb)

/-- Lookup in a dict built (with unique keys) from an inventory finds exactly
the inventory's entry for that url. -/
theorem dictGet_map_pair (fs : List JSFile) (u : String) :
    dictGet (fs.map (fun f => (f.url, f))) u = fs.find? (fun f => decide (f.url = u)) := by
  unfold dictGet
  rw [List.find?_map]
  have hcomp : ((fun p : String × JSFile => decide (p.1 = u)) ∘ fun f => (f.url, f)) =
      (fun f : JSFile => decide (f.url = u)) := rfl
  rw [hcomp]
  cases fs.find? (fun f => decide (f.url = u)) <;> rfl

theorem find?_url_eq_none_iff (fs : List JSFile) (u : String) :
    fs.find? (fun f => decide (f.url = u)) = none ↔ u ∉ urlsOf fs := by
  rw [List.find?_eq_none]
  unfold urlsOf
  simp

theorem mem_urlsOf (fs : List JSFile) (u : String) :
    u ∈ urlsOf fs ↔ ∃ f ∈ fs, f.url = u := by
  unfold urlsOf; simp

/-- Under unique URLs, `find?` on an inventory finds any member with that URL. -/
theorem find?_url_of_mem {fs : List JSFile} {f : JSFile}
    (hnd : (urlsOf fs).Nodup) (hf : f ∈ fs) :
    fs.find? (fun g => decide (g.url = f.url)) = some f := by
  induction fs with
  | nil => cases hf
  | cons g fs ih =>
    unfold urlsOf at hnd
    simp only [List.map_cons, List.nodup_cons] at hnd
    rw [List.find?_cons]
    rcases List.mem_cons.mp hf with h | h
    · subst h; simp
    · have hne : g.url ≠ f.url := by
        intro he
        exact hnd.1 (he ▸ List.mem_map_of_mem (fun f => f.url) h)
      have : (decide (g.url = f.url)) = false := by simp [hne]
      simp only [this]
      exact ih hnd.2 h

/-- Under unique URLs, `added` is a plain filter of the new inventory. -/
theorem compare_files_added_eq (old_files new_files : List JSFile)
    (hold : (urlsOf old_files).Nodup) (hnew : (urlsOf new_files).Nodup) :
    (compare_files old_files new_files).added =
      new_files.filter
        (fun x => (old_files.find? (fun g => decide (g.url = x.url))).isNone) := by
  unfold urlsOf at hold hnew
  show ((pyDict (fun f => f.url) new_files).filter
      (fun p => (dictGet (pyDict (fun f => f.url) old_files) p.1).isNone)).map Prod.snd = _
  rw [pyDict_eq_map _ _ hold, pyDict_eq_map _ _ hnew]
  rw [List.filter_map, List.map_map]
  have h1 : (Prod.snd ∘ fun f : JSFile => (f.url, f)) = id := rfl
  rw [h1, List.map_id]
  congr 1
  funext x
  simp [dictGet_map_pair]

/-- Under unique URLs, `removed` is a plain filter of the old inventory. -/
theorem compare_files_removed_eq (old_files new_files : List JSFile)
    (hold : (urlsOf old_files).Nodup) (hnew : (urlsOf new_files).Nodup) :
    (compare_files old_files new_files).removed =
      old_files.filter
        (fun x => (new_files.find? (fun g => decide (g.url = x.url))).isNone) := by
  unfold urlsOf at hold hnew
  show ((pyDict (fun f => f.url) old_files).filter
      (fun p => (dictGet (pyDict (fun f => f.url) new_files) p.1).isNone)).map Prod.snd = _
  rw [pyDict_eq_map _ _ hold, pyDict_eq_map _ _ hnew]
  rw [List.filter_map, List.map_map]
  have h1 : (Prod.snd ∘ fun f : JSFile => (f.url, f)) = id := rfl
  rw [h1, List.map_id]
  congr 1
  funext x
  simp [dictGet_map_pair]

/-- Pointwise evaluation of `changeOf` over the (unique-url) dict. -/
theorem changeOf_map_pair (old_files : List JSFile) (x : JSFile) :
    changeOf (old_files.map (fun f => (f.url, f))) (x.url, x) =
      match old_files.find? (fun g => decide (g.url = x.url)) with
      | some old_file =>
          if old_file.hash ≠ x.hash then
            some { url := x.url, old_hash := old_file.hash, new_hash := x.hash,
                   filename := x.filename }
          else none
      | none => none := by
  unfold changeOf
  rw [dictGet_map_pair]

/-- Under unique URLs, `changed` is a plain filterMap of the new inventory. -/
theorem compare_files_changed_eq (old_files new_files : List JSFile)
    (hold : (urlsOf old_files).Nodup) (hnew : (urlsOf new_files).Nodup) :
    (compare_files old_files new_files).changed =
      new_files.filterMap (fun x =>
        match old_files.find? (fun g => decide (g.url = x.url)) with
        | some old_file =>
            if old_file.hash ≠ x.hash then
              some { url := x.url, old_hash := old_file.hash, new_hash := x.hash,
                     filename := x.filename }
            else none
        | none => none) := by
  unfold urlsOf at hold hnew
  have hdef : (compare_files old_files new_files).changed =
      (pyDict (fun f => f.url) new_files).filterMap
        (changeOf (pyDict (fun f => f.url) old_files)) := rfl
  rw [hdef, pyDict_eq_map _ _ hold, pyDict_eq_map _ _ hnew, List.filterMap_map]
  congr 1
  funext x
  exact changeOf_map_pair old_files x

theorem mem_added_iff (old_files new_files : List JSFile)
    (hold : (urlsOf old_files).Nodup) (hnew : (urlsOf new_files).Nodup) (f : JSFile) :
    f ∈ (compare_files old_files new_files).added ↔
      f ∈ new_files ∧ f.url ∉ urlsOf old_files := by
  rw [compare_files_added_eq _ _ hold hnew]
  simp only [List.mem_filter, Option.isNone_iff_eq_none, find?_url_eq_none_iff]

theorem mem_removed_iff (old_files new_files : List JSFile)
    (hold : (urlsOf old_files).Nodup) (hnew : (urlsOf new_files).Nodup) (f : JSFile) :
    f ∈ (compare_files old_files new_files).removed ↔
      f ∈ old_files ∧ f.url ∉ urlsOf new_files := by
  rw [compare_files_removed_eq _ _ hold hnew]
  simp only [List.mem_filter, Option.isNone_iff_eq_none, find?_url_eq_none_iff]

theorem mem_changed_iff (old_files new_files : List JSFile)
    (hold : (urlsOf old_files).Nodup) (hnew : (urlsOf new_files).Nodup) (c : ChangedEntry) :
    c ∈ (compare_files old_files new_files).changed ↔
      ∃ fo fn, fo ∈ old_files ∧ fn ∈ new_files ∧ fo.url = c.url ∧ fn.url = c.url ∧
        fo.hash ≠ fn.hash ∧ c.old_hash = fo.hash ∧ c.new_hash = fn.hash ∧
        c.filename = fn.filename := by
  rw [compare_files_changed_eq _ _ hold hnew]
  rw [List.mem_filterMap]
  constructor
  · rintro ⟨x, hx, hF⟩
    cases hfind : old_files.find? (fun g => decide (g.url = x.url)) with
    | none => rw [hfind] at hF; cases hF
    | some o =>
      rw [hfind] at hF
      dsimp only at hF
      by_cases hh : o.hash ≠ x.hash
      · rw [if_pos hh] at hF
        have hc := (Option.some.inj hF).symm
        have ho_mem : o ∈ old_files := List.mem_of_find?_eq_some hfind
        have ho_url : o.url = x.url := by
          have := List.find?_some hfind
          simpa using this
        subst hc
        exact ⟨o, x, ho_mem, hx, ho_url, rfl, hh, rfl, rfl, rfl⟩
      · rw [if_neg hh] at hF; cases hF
  · rintro ⟨fo, fn, hfo, hfn, hfou, hfnu, hne, hco, hcn, hcf⟩
    refine ⟨fn, hfn, ?_⟩
    have hfind : old_files.find? (fun g => decide (g.url = fn.url)) = some fo := by
      rw [hfnu, ← hfou]
      exact find?_url_of_mem hold hfo
    rw [hfind]
    dsimp only
    rw [if_pos hne]
    cases c
    simp only [Option.some.injEq, ChangedEntry.mk.injEq]
    exact ⟨hfnu, hco.symm, hcn.symm, hcf.symm⟩

theorem mem_added_urls (old_files new_files : List JSFile)
    (hold : (urlsOf old_files).Nodup) (hnew : (urlsOf new_files).Nodup) (u : String) :
    u ∈ (compare_files old_files new_files).added.map (fun f => f.url) ↔
      u ∈ urlsOf new_files ∧ u ∉ urlsOf old_files := by
  simp only [List.mem_map]
  constructor
  · rintro ⟨f, hf, rfl⟩
    have := (mem_added_iff _ _ hold hnew f).mp hf
    exact ⟨(mem_urlsOf _ _).mpr ⟨f, this.1, rfl⟩, this.2⟩
  · rintro ⟨hn, ho⟩
    obtain ⟨f, hf, rfl⟩ := (mem_urlsOf _ _).mp hn
    exact ⟨f, (mem_added_iff _ _ hold hnew f).mpr ⟨hf, ho⟩, rfl⟩

theorem mem_removed_urls (old_files new_files : List JSFile)
    (hold : (urlsOf old_files).Nodup) (hnew : (urlsOf new_files).Nodup) (u : String) :
    u ∈ (compare_files old_files new_files).removed.map (fun f => f.url) ↔
      u ∈ urlsOf old_files ∧ u ∉ urlsOf new_files := by
  simp only [List.mem_map]
  constructor
  · rintro ⟨f, hf, rfl⟩
    have := (mem_removed_iff _ _ hold hnew f).mp hf
    exact ⟨(mem_urlsOf _ _).mpr ⟨f, this.1, rfl⟩, this.2⟩
  · rintro ⟨ho, hn⟩
    obtain ⟨f, hf, rfl⟩ := (mem_urlsOf _ _).mp ho
    exact ⟨f, (mem_removed_iff _ _ hold hnew f).mpr ⟨hf, hn⟩, rfl⟩

theorem lookupHash_of_mem {fs : List JSFile} {f : JSFile}
    (hnd : (urlsOf fs).Nodup) (hf : f ∈ fs) :
    lookupHash fs f.url = some f.hash := by
  unfold lookupHash
  rw [find?_url_of_mem hnd hf]
  rfl

theorem mem_changed_urls (old_files new_files : List JSFile)
    (hold : (urlsOf old_files).Nodup) (hnew : (urlsOf new_files).Nodup) (u : String) :
    u ∈ (compare_files old_files new_files).changed.map (fun c => c.url) ↔
      u ∈ urlsOf old_files ∧ u ∈ urlsOf new_files ∧
        lookupHash old_files u ≠ lookupHash new_files u := by
  simp only [List.mem_map]
  constructor
  · rintro ⟨c, hc, rfl⟩
    obtain ⟨fo, fn, hfo, hfn, hfou, hfnu, hne, hco, hcn, hcf⟩ :=
      (mem_changed_iff _ _ hold hnew c).mp hc
    refine ⟨(mem_urlsOf _ _).mpr ⟨fo, hfo, hfou⟩, (mem_urlsOf _ _).mpr ⟨fn, hfn, hfnu⟩, ?_⟩
    rw [← hfou]
    rw [lookupHash_of_mem hold hfo]
    rw [hfou, ← hfnu, lookupHash_of_mem hnew hfn]
    intro h
    exact hne (Option.some.inj h)
  · rintro ⟨ho, hn, hne⟩
    obtain ⟨fo, hfo, rfl⟩ := (mem_urlsOf _ _).mp ho
    obtain ⟨fn, hfn, hfnu⟩ := (mem_urlsOf _ _).mp hn
    have hhash : fo.hash ≠ fn.hash := by
      intro h
      apply hne
      rw [lookupHash_of_mem hold hfo, ← hfnu, lookupHash_of_mem hnew hfn, h]
    refine ⟨{ url := fo.url, old_hash := fo.hash, new_hash := fn.hash,
              filename := fn.filename }, ?_, rfl⟩
    exact (mem_changed_iff _ _ hold hnew _).mpr
      ⟨fo, fn, hfo, hfn, rfl, hfnu, hhash, rfl, rfl, rfl⟩

/-- C1: the diff classification of `compare_files` is a partition of the URL
universe: `added` is exactly new-minus-old, `removed` exactly old-minus-new,
`changed` exactly the common URLs with differing fingerprints (carrying both
fingerprints), `added` and `removed` are disjoint, and every URL of either
inventory falls in exactly one of added / removed / changed / unchanged. -/
theorem C1_diff_classification_partition (old_files new_files : List JSFile)
    (hold : (urlsOf old_files).Nodup) (hnew : (urlsOf new_files).Nodup) :
    DiffPartitionSpec old_files new_files := by
  refine ⟨mem_added_iff _ _ hold hnew, mem_removed_iff _ _ hold hnew,
          mem_changed_iff _ _ hold hnew, ?_, ?_⟩
  · intro u ⟨ha, hr⟩
    have h1 := (mem_added_urls _ _ hold hnew u).mp ha
    have h2 := (mem_removed_urls _ _ hold hnew u).mp hr
    exact h1.2 h2.1
  · intro u hu
    rw [exactlyOne]
    rw [mem_added_urls _ _ hold hnew, mem_removed_urls _ _ hold hnew,
        mem_changed_urls _ _ hold hnew]
    by_cases ho : u ∈ urlsOf old_files
    · by_cases hn : u ∈ urlsOf new_files
      · by_cases heq : lookupHash old_files u = lookupHash new_files u
        · exact Or.inr (Or.inr (Or.inr
            ⟨fun h => h.2 ho, fun h => h.2 hn, fun h => h.2.2 heq, ho, hn, heq⟩))
        · exact Or.inr (Or.inr (Or.inl
            ⟨fun h => h.2 ho, fun h => h.2 hn, ⟨ho, hn, heq⟩, fun h => heq h.2.2⟩))
      · exact Or.inr (Or.inl
          ⟨fun h => hn h.1, ⟨ho, hn⟩, fun h => hn h.2.1, fun h => hn h.2.1⟩)
    · have hn : u ∈ urlsOf new_files := by
        rcases hu with h | h
        · exact absurd h ho
        · exact h
      exact Or.inl ⟨⟨hn, ho⟩, fun h => ho h.1, fun h => ho h.1, fun h => ho h.1⟩

/-- Witness for C1 at the spec scenario: old `a.js: h1`, new `a.js: h2, b.js: h3`. -/
theorem C1_diff_classification_partition_witness :
    (urlsOf [⟨"https://example.com/a.js", "a.js", "h1"⟩]).Nodup ∧
    (urlsOf [⟨"https://example.com/a.js", "a.js", "h2"⟩,
             ⟨"https://example.com/b.js", "b.js", "h3"⟩]).Nodup ∧
    DiffPartitionSpec
      [⟨"https://example.com/a.js", "a.js", "h1"⟩]
      [⟨"https://example.com/a.js", "a.js", "h2"⟩,
       ⟨"https://example.com/b.js", "b.js", "h3"⟩] :=
  ⟨by decide, by decide, C1_diff_classification_partition _ _ (by decide) (by decide)⟩

/-! ## Fingerprint store: api/app.py

The `js_files` table is modelled as a list of rows in insertion order; the
schema constraint `UNIQUE(domain, url)` is the predicate `DBWF`.  SQL
statements become list operations: `SELECT ... WHERE` is `filter`/`find?`,
`UPDATE ... WHERE` maps the matching rows, `INSERT` appends. -/

/-- One row of the `js_files` table. -/
structure Row where
  domain : String
  url : String
  filename : String
  hash : String
  first_seen : Int
  last_seen : Int
  is_active : Bool
deriving DecidableEq, Repr

/-- The `WHERE domain=? AND url=?` condition. -/
def rowMatches (d u : String) (r : Row) : Bool := decide (r.domain = d ∧ r.url = u)

/-- The unique row for `(domain, url)`, if present (first match in row order,
which under `DBWF` is the only match). -/
def getRow (db : List Row) (d u : String) : Option Row := db.find? (rowMatches d u)

/-- Schema constraint `UNIQUE(domain, url)` of the `js_files` table. -/
def DBWF (db : List Row) : Prop :=
  db.Pairwise (fun a b => ¬ (a.domain = b.domain ∧ a.url = b.url))

/-- `UPDATE js_files SET is_active=0 WHERE domain=?` (first statement of
`register_files`). -/
def mark_inactive (db : List Row) (d : String) : List Row :=
  db.map (fun r => if r.domain = d then { r with is_active := false } else r)

/-- The values of the `INSERT INTO js_files` statement of `register_files`:
a fresh row with `first_seen = last_seen = now`, active by default. -/
def freshRow (d : String) (f : JSFile) (now : Int) : Row :=
  { domain := d, url := f.url, filename := f.filename, hash := f.hash,
    first_seen := now, last_seen := now, is_active := true }

/-- The per-file loop body of `register_files`: `SELECT id ... WHERE domain=?
AND url=?`; if found `UPDATE ... SET hash=?, last_seen=?, is_active=1`, else
`INSERT` a fresh row with `first_seen = last_seen = now`. -/
def upsert_file (db : List Row) (d : String) (f : JSFile) (now : Int) : List Row :=
  if (getRow db d f.url).isSome then
    db.map (fun r =>
      if rowMatches d f.url r then
        { r with hash := f.hash, last_seen := now, is_active := true }
      else r)
  else
    db ++ [freshRow d f now]

/-- `register_files` from api/app.py: deactivate the whole domain, then
upsert every observed file. -/
def register_files (db : List Row) (d : String) (files : List JSFile) (now : Int) :
    List Row :=
  files.foldl (fun db f => upsert_file db d f now) (mark_inactive db d)

/-- Response of the `check-new-files` endpoint. -/
structure CheckResult where
  new_files : List JSFile
  modified_files : List JSFile
  total_current : Nat
  total_known : Nat
deriving DecidableEq, Repr

/-- `SELECT url, hash, filename FROM js_files WHERE domain=? AND is_active=1`. -/
def active_rows (db : List Row) (d : String) : List Row :=
  db.filter (fun r => decide (r.domain = d) && r.is_active)

/-- The per-file loop body of `check_new_files`: unknown url goes to
`new_files`, known url with differing hash to `modified_files`. -/
def check_step (known_files : List (String × Row)) (acc : List JSFile × List JSFile)
    (f : JSFile) : List JSFile × List JSFile :=
  match dictGet known_files f.url with
  | none => (acc.1 ++ [f], acc.2)
  | some row => if row.hash ≠ f.hash then (acc.1, acc.2 ++ [f]) else acc

/-- `check_new_files` from api/app.py. -/
def check_new_files (db : List Row) (d : String) (current_files : List JSFile) :
    CheckResult :=
  let known_files := pyDict (fun r => r.url) (active_rows db d)
  let nm := current_files.foldl (check_step known_files) ([], [])
  { new_files := nm.1, modified_files := nm.2,
    total_current := current_files.length, total_known := known_files.length }

/-! ### Store lemmas -/

theorem dictGet_map_key {α : Type} (key : α → String) (xs : List α) (u : String) :
    dictGet (xs.map (fun x => (key x, x))) u = xs.find? (fun x => decide (key x = u)) := by
  unfold dictGet
  rw [List.find?_map]
  have h : ((fun p : String × α => decide (p.1 = u)) ∘ fun x => (key x, x)) =
      (fun x => decide (key x = u)) := rfl
  rw [h]
  cases xs.find? (fun x => decide (key x = u)) <;> rfl

/-- `find?` for a `(domain, url)` pattern commutes with any row map that
preserves `domain` and `url`. -/
theorem getRow_map (db : List Row) (g : Row → Row)
    (hg : ∀ r, (g r).domain = r.domain ∧ (g r).url = r.url) (d u : String) :
    getRow (db.map g) d u = (getRow db d u).map g := by
  unfold getRow
  rw [List.find?_map]
  have h : (rowMatches d u ∘ g) = rowMatches d u := by
    funext r
    show rowMatches d u (g r) = rowMatches d u r
    unfold rowMatches
    rw [(hg r).1, (hg r).2]
  rw [h]

theorem mark_inactive_fields {db : List Row} {d : String} {r : Row}
    (hr : r ∈ mark_inactive db d) (hd : r.domain = d) : r.is_active = false := by
  unfold mark_inactive at hr
  obtain ⟨r0, _, rfl⟩ := List.mem_map.mp hr
  by_cases h : r0.domain = d
  · simp [h]
  · rw [if_neg h] at hd ⊢
    exact absurd hd h

theorem mem_upsert_untouched {db : List Row} {d : String} {f : JSFile} {now : Int}
    {r : Row} (hr : r ∈ upsert_file db d f now)
    (hne : ¬ (r.domain = d ∧ r.url = f.url)) : r ∈ db := by
  unfold upsert_file at hr
  by_cases hs : (getRow db d f.url).isSome
  · rw [if_pos hs] at hr
    obtain ⟨r0, hr0, heq⟩ := List.mem_map.mp hr
    by_cases hm : rowMatches d f.url r0 = true
    · rw [if_pos hm] at heq
      unfold rowMatches at hm
      simp only [decide_eq_true_eq] at hm
      exact absurd ⟨by rw [← heq]; exact hm.1, by rw [← heq]; exact hm.2⟩ hne
    · rw [if_neg hm] at heq
      exact heq ▸ hr0
  · rw [if_neg hs] at hr
    rcases List.mem_append.mp hr with h | h
    · exact h
    · simp only [List.mem_singleton] at h
      exact absurd ⟨by simp [h, freshRow], by simp [h, freshRow]⟩ hne

theorem mem_regFold_untouched {d : String} {now : Int} :
    ∀ (fs : List JSFile) (db : List Row) (r : Row),
      r ∈ fs.foldl (fun db f => upsert_file db d f now) db →
      r.domain = d → r.url ∉ urlsOf fs → r ∈ db := by
  intro fs
  induction fs with
  | nil => intro db r hr _ _; exact hr
  | cons g fs ih =>
    intro db r hr hd hu
    unfold urlsOf at hu
    simp only [List.map_cons, List.mem_cons] at hu
    push_neg at hu
    have h1 : r ∈ upsert_file db d g now :=
      ih (upsert_file db d g now) r hr hd (by unfold urlsOf; exact fun h => hu.2 h)
    exact mem_upsert_untouched h1 (fun h => hu.1 (h.2.symm ▸ rfl))

/-- `getRow` at a url not being upserted is unchanged. -/
theorem getRow_upsert_other {db : List Row} {d : String} {f : JSFile} {now : Int}
    {u : String} (hne : u ≠ f.url) :
    getRow (upsert_file db d f now) d u = getRow db d u := by
  unfold upsert_file
  by_cases hs : (getRow db d f.url).isSome
  · rw [if_pos hs]
    rw [getRow_map _ _ (fun r => by by_cases h : rowMatches d f.url r = true <;> simp [h])]
    cases hfind : getRow db d u with
    | none => rfl
    | some r0 =>
      have hp := List.find?_some hfind
      unfold rowMatches at hp
      simp only [decide_eq_true_eq] at hp
      have : rowMatches d f.url r0 = false := by
        unfold rowMatches
        simp only [decide_eq_false_iff_not]
        exact fun h => hne (hp.2 ▸ h.2.symm ▸ rfl)
      simp [this]
  · rw [if_neg hs]
    unfold getRow
    rw [List.find?_append]
    cases hfind : db.find? (rowMatches d u) with
    | some r0 => rfl
    | none =>
      have hm : rowMatches d u (freshRow d f now) = false := by
        unfold rowMatches freshRow
        simp only [decide_eq_false_iff_not]
        exact fun h => hne h.2.symm
      simp [hm]

/-- `getRow` at the upserted url: existing row updated in place (keeping
`first_seen`), otherwise the fresh row. -/
theorem getRow_upsert_self (db : List Row) (d : String) (f : JSFile) (now : Int) :
    getRow (upsert_file db d f now) d f.url =
      some (match getRow db d f.url with
        | some r0 => { r0 with hash := f.hash, last_seen := now, is_active := true }
        | none => freshRow d f now) := by
  unfold upsert_file
  cases hfind : getRow db d f.url with
  | some r0 =>
    rw [if_pos (by rfl)]
    rw [getRow_map _ _ (fun r => by by_cases h : rowMatches d f.url r = true <;> simp [h])]
    rw [hfind]
    have hp : rowMatches d f.url r0 = true := List.find?_some hfind
    simp [hp]
  | none =>
    rw [if_neg (by simp)]
    unfold getRow at hfind ⊢
    rw [List.find?_append, hfind]
    have hm : rowMatches d f.url (freshRow d f now) = true := by
      unfold rowMatches freshRow
      simp
    simp [hm]

theorem getRow_mark_inactive (db : List Row) (d u : String) :
    getRow (mark_inactive db d) d u =
      (getRow db d u).map (fun r => { r with is_active := false }) := by
  unfold mark_inactive
  rw [getRow_map _ _ (fun r => by by_cases h : r.domain = d <;> simp [h])]
  cases hfind : getRow db d u with
  | none => rfl
  | some r0 =>
    have hp := List.find?_some hfind
    unfold rowMatches at hp
    simp only [decide_eq_true_eq] at hp
    simp [hp.1]

theorem getRow_regFold_other {d : String} {now : Int} {u : String} :
    ∀ (fs : List JSFile) (db : List Row), u ∉ urlsOf fs →
      getRow (fs.foldl (fun db f => upsert_file db d f now) db) d u = getRow db d u := by
  intro fs
  induction fs with
  | nil => intro db _; rfl
  | cons g fs ih =>
    intro db hu
    unfold urlsOf at hu
    simp only [List.map_cons, List.mem_cons] at hu
    push_neg at hu
    rw [List.foldl_cons]
    rw [ih _ (by unfold urlsOf; exact hu.2)]
    exact getRow_upsert_other hu.1

theorem getRow_regFold_mem {d : String} {now : Int} :
    ∀ (fs : List JSFile) (db : List Row) (f : JSFile), (urlsOf fs).Nodup → f ∈ fs →
      getRow (fs.foldl (fun db f => upsert_file db d f now) db) d f.url =
        some (match getRow db d f.url with
          | some r0 => { r0 with hash := f.hash, last_seen := now, is_active := true }
          | none => freshRow d f now) := by
  intro fs
  induction fs with
  | nil => intro db f _ hf; cases hf
  | cons g fs ih =>
    intro db f hnd hf
    unfold urlsOf at hnd
    simp only [List.map_cons, List.nodup_cons] at hnd
    rw [List.foldl_cons]
    rcases List.mem_cons.mp hf with h | h
    · subst h
      have hgu : f.url ∉ urlsOf fs := by unfold urlsOf; exact hnd.1
      rw [getRow_regFold_other fs _ hgu]
      exact getRow_upsert_self db d f now
    · have hne : f.url ≠ g.url := by
        intro he
        exact hnd.1 (he ▸ List.mem_map_of_mem (fun f => f.url) h)
      rw [ih _ f (by unfold urlsOf; exact hnd.2) h]
      rw [getRow_upsert_other hne]

/-- The row `register_files` leaves for each observed file: fingerprint and
`last_seen` refreshed, reactivated, `first_seen` preserved for a pre-existing
`(domain, url)` row and set to `now` for a fresh one. -/
theorem register_row_fields (db : List Row) (d : String) (files : List JSFile)
    (now : Int) (hnd : (urlsOf files).Nodup) (f : JSFile) (hf : f ∈ files) :
    ∃ r, getRow (register_files db d files now) d f.url = some r ∧
      r.domain = d ∧ r.url = f.url ∧ r.hash = f.hash ∧ r.last_seen = now ∧
      r.is_active = true ∧
      r.first_seen = (match getRow db d f.url with
        | some r0 => r0.first_seen
        | none => now) := by
  unfold register_files
  rw [getRow_regFold_mem files _ f hnd hf, getRow_mark_inactive]
  cases hfind : getRow db d f.url with
  | some r0 =>
    have hp := List.find?_some hfind
    unfold rowMatches at hp
    simp only [decide_eq_true_eq] at hp
    exact ⟨_, rfl, hp.1, hp.2, rfl, rfl, rfl, rfl⟩
  | none =>
    exact ⟨freshRow d f now, rfl, rfl, rfl, rfl, rfl, rfl, rfl⟩

/-- C2's property: after reconcile, the active rows of the domain are exactly
the observed URL set, fingerprints and timestamps are refreshed, `first_seen`
is preserved for pre-existing rows and initialized to `now` for fresh ones,
and everything else of the domain is inactive. -/
def ReconcileSpec (db : List Row) (d : String) (files : List JSFile) (now : Int) : Prop :=
  (∀ u, (∃ r ∈ register_files db d files now,
      r.domain = d ∧ r.url = u ∧ r.is_active = true) ↔ u ∈ urlsOf files) ∧
  (∀ f ∈ files, ∃ r, getRow (register_files db d files now) d f.url = some r ∧
      r.domain = d ∧ r.url = f.url ∧ r.hash = f.hash ∧ r.last_seen = now ∧
      r.is_active = true ∧
      r.first_seen = (match getRow db d f.url with
        | some r0 => r0.first_seen
        | none => now)) ∧
  (∀ r ∈ register_files db d files now,
      r.domain = d → r.url ∉ urlsOf files → r.is_active = false)

/-- C2: `register_files` reconciles the store so that exactly the observed
inventory is active for the domain, with the claimed field updates. -/
theorem C2_register_files_reconciles (db : List Row) (d : String)
    (files : List JSFile) (now : Int) (hnd : (urlsOf files).Nodup) :
    ReconcileSpec db d files now := by
  have hinactive : ∀ r ∈ register_files db d files now,
      r.domain = d → r.url ∉ urlsOf files → r.is_active = false := by
    intro r hr hd hu
    have h1 : r ∈ mark_inactive db d := by
      unfold register_files at hr
      exact mem_regFold_untouched files _ r hr hd hu
    exact mark_inactive_fields h1 hd
  refine ⟨?_, register_row_fields db d files now hnd, hinactive⟩
  intro u
  constructor
  · rintro ⟨r, hr, hd, hu, hact⟩
    by_contra h
    rw [hinactive r hr hd (hu ▸ h)] at hact
    cases hact
  · intro hu
    obtain ⟨f, hf, rfl⟩ := (mem_urlsOf _ _).mp hu
    obtain ⟨r, hget, hd, hurl, _, _, hact, _⟩ :=
      register_row_fields db d files now hnd f hf
    exact ⟨r, List.mem_of_find?_eq_some hget, hd, hurl, hact⟩

/-- Witness for C2: a store with one pre-existing row of the domain and one
foreign-domain row, reconciled against a two-file inventory. -/
theorem C2_register_files_reconciles_witness :
    (urlsOf [⟨"https://example.com/a.js", "a.js", "h2"⟩,
             ⟨"https://example.com/b.js", "b.js", "h3"⟩]).Nodup ∧
    ReconcileSpec
      [⟨"example.com", "https://example.com/a.js", "a.js", "h1", 10, 20, true⟩,
       ⟨"other.com", "https://other.com/x.js", "x.js", "h9", 1, 2, true⟩]
      "example.com"
      [⟨"https://example.com/a.js", "a.js", "h2"⟩,
       ⟨"https://example.com/b.js", "b.js", "h3"⟩]
      100 :=
  ⟨by decide, C2_register_files_reconciles _ _ _ _ (by decide)⟩

/-! ### Uniqueness preservation and idempotence -/

theorem DBWF_unique {db : List Row} (h : DBWF db) {a b : Row} (ha : a ∈ db)
    (hb : b ∈ db) (hd : a.domain = b.domain) (hu : a.url = b.url) : a = b := by
  by_contra hne
  have hsymm : Symmetric (fun a b : Row => ¬ (a.domain = b.domain ∧ a.url = b.url)) := by
    intro x y hxy hcon
    exact hxy ⟨hcon.1.symm, hcon.2.symm⟩
  exact (h.forall hsymm) ha hb hne ⟨hd, hu⟩

theorem DBWF_map {db : List Row} (g : Row → Row)
    (hg : ∀ r, (g r).domain = r.domain ∧ (g r).url = r.url) (h : DBWF db) :
    DBWF (db.map g) := by
  unfold DBWF at *
  rw [List.pairwise_map]
  refine h.imp ?_
  intro a b hab
  rw [(hg a).1, (hg b).1, (hg a).2, (hg b).2]
  exact hab

theorem DBWF_mark_inactive (db : List Row) (d : String) (h : DBWF db) :
    DBWF (mark_inactive db d) :=
  DBWF_map _ (fun r => by by_cases hr : r.domain = d <;> simp [hr]) h

theorem DBWF_upsert (db : List Row) (d : String) (f : JSFile) (now : Int)
    (h : DBWF db) : DBWF (upsert_file db d f now) := by
  unfold upsert_file
  by_cases hs : (getRow db d f.url).isSome
  · rw [if_pos hs]
    exact DBWF_map _ (fun r => by by_cases hr : rowMatches d f.url r = true <;> simp [hr]) h
  · rw [if_neg hs]
    unfold DBWF
    rw [List.pairwise_append]
    refine ⟨h, List.pairwise_singleton _ _, ?_⟩
    intro a ha b hb
    simp only [List.mem_singleton] at hb
    subst hb
    have hnone : getRow db d f.url = none := by
      cases hx : getRow db d f.url with
      | none => rfl
      | some r => rw [hx] at hs; exact absurd rfl hs
    have hfree := List.find?_eq_none.mp hnone a ha
    unfold rowMatches at hfree
    simp only [decide_eq_true_eq] at hfree
    simpa [freshRow] using hfree

theorem DBWF_regFold {d : String} {now : Int} :
    ∀ (fs : List JSFile) (db : List Row), DBWF db →
      DBWF (fs.foldl (fun db f => upsert_file db d f now) db) := by
  intro fs
  induction fs with
  | nil => intro db h; exact h
  | cons g fs ih =>
    intro db h
    rw [List.foldl_cons]
    exact ih _ (DBWF_upsert db d g now h)

theorem DBWF_register (db : List Row) (d : String) (files : List JSFile)
    (now : Int) (h : DBWF db) : DBWF (register_files db d files now) :=
  DBWF_regFold files _ (DBWF_mark_inactive db d h)

theorem active_rows_nodup (db : List Row) (d : String) (h : DBWF db) :
    ((active_rows db d).map (fun r => r.url)).Nodup := by
  unfold active_rows
  have h2 : (db.filter (fun r => decide (r.domain = d) && r.is_active)).Pairwise
      (fun a b => ¬ (a.domain = b.domain ∧ a.url = b.url)) :=
    h.sublist (List.filter_sublist db)
  unfold List.Nodup
  rw [List.pairwise_map]
  refine h2.imp_of_mem ?_
  intro a b ha hb hab he
  have hda : a.domain = d := by
    have := List.of_mem_filter ha
    simp only [Bool.and_eq_true, decide_eq_true_eq] at this
    exact this.1
  have hdb : b.domain = d := by
    have := List.of_mem_filter hb
    simp only [Bool.and_eq_true, decide_eq_true_eq] at this
    exact this.1
  exact hab ⟨hda.trans hdb.symm, he⟩

theorem known_lookup (db : List Row) (d : String) (h : DBWF db) (u : String) :
    dictGet (pyDict (fun r => r.url) (active_rows db d)) u =
      (active_rows db d).find? (fun r => decide (r.url = u)) := by
  rw [pyDict_eq_map _ _ (active_rows_nodup db d h), dictGet_map_key]

theorem check_fold_neutral (known : List (String × Row)) :
    ∀ (fs : List JSFile) (acc : List JSFile × List JSFile),
      (∀ f ∈ fs, ∃ row, dictGet known f.url = some row ∧ row.hash = f.hash) →
      fs.foldl (check_step known) acc = acc := by
  intro fs
  induction fs with
  | nil => intro acc _; rfl
  | cons g fs ih =>
    intro acc hall
    rw [List.foldl_cons]
    obtain ⟨row, hrow, hhash⟩ := hall g (List.mem_cons_self g fs)
    have hstep : check_step known acc g = acc := by
      unfold check_step
      rw [hrow]
      dsimp only
      rw [if_neg (by simp [hhash])]
    rw [hstep]
    exact ih acc (fun f hf => hall f (List.mem_cons_of_mem g hf))

/-- The projection of a row that `register_files` never alters: identity and
`first_seen`. -/
def projFS (r : Row) : String × String × Int := (r.domain, r.url, r.first_seen)

theorem projFS_mark_inactive (db : List Row) (d : String) :
    (mark_inactive db d).map projFS = db.map projFS := by
  unfold mark_inactive
  rw [List.map_map]
  congr 1
  funext r
  by_cases hr : r.domain = d <;> simp [projFS, hr]

theorem projFS_upsert (db : List Row) (d : String) (f : JSFile) (now : Int)
    (hs : (getRow db d f.url).isSome) :
    (upsert_file db d f now).map projFS = db.map projFS := by
  unfold upsert_file
  rw [if_pos hs, List.map_map]
  congr 1
  funext r
  by_cases hr : rowMatches d f.url r = true <;> simp [projFS, hr]

theorem isSome_getRow_upsert {db : List Row} {d : String} {f : JSFile} {now : Int}
    {u : String} (h : (getRow db d u).isSome) :
    (getRow (upsert_file db d f now) d u).isSome := by
  by_cases he : u = f.url
  · subst he
    rw [getRow_upsert_self]
    rfl
  · rw [getRow_upsert_other he]
    exact h

theorem regFold_projFS {d : String} {now : Int} :
    ∀ (fs : List JSFile) (db : List Row),
      (∀ f ∈ fs, (getRow db d f.url).isSome) →
      (fs.foldl (fun db f => upsert_file db d f now) db).map projFS = db.map projFS := by
  intro fs
  induction fs with
  | nil => intro db _; rfl
  | cons g fs ih =>
    intro db hall
    rw [List.foldl_cons]
    rw [ih _ (fun f hf => isSome_getRow_upsert (hall f (List.mem_cons_of_mem g hf)))]
    exact projFS_upsert db d g now (hall g (List.mem_cons_self g fs))

theorem register_projFS (db : List Row) (d : String) (files : List JSFile)
    (now : Int) (hall : ∀ f ∈ files, (getRow db d f.url).isSome) :
    (register_files db d files now).map projFS = db.map projFS := by
  unfold register_files
  rw [regFold_projFS files _ ?_]
  · exact projFS_mark_inactive db d
  · intro f hf
    rw [getRow_mark_inactive]
    have h := hall f hf
    cases hx : getRow db d f.url with
    | none => rw [hx] at h; simp at h
    | some r => rfl

/-- C5's property: immediately re-reconciling the same inventory produces an
empty diff against the stored active state, and no row's `first_seen` (nor its
identity or position) changes. -/
def IdempotentSpec (db : List Row) (d : String) (I : List JSFile) (t1 t2 : Int) : Prop :=
  (check_new_files (register_files db d I t1) d I).new_files = [] ∧
  (check_new_files (register_files db d I t1) d I).modified_files = [] ∧
  (register_files (register_files db d I t1) d I t2).map projFS =
    (register_files db d I t1).map projFS

/-- C5: `register_files` is idempotent: after reconciling inventory `I`, a
`check_new_files` of `I` reports nothing new and nothing modified, and a second
reconcile of `I` changes no `first_seen`. -/
theorem C5_reconcile_idempotent (db : List Row) (d : String) (I : List JSFile)
    (t1 t2 : Int) (hwf : DBWF db) (hnd : (urlsOf I).Nodup) :
    IdempotentSpec db d I t1 t2 := by
  have hwf1 : DBWF (register_files db d I t1) := DBWF_register db d I t1 hwf
  have hkey : ∀ f ∈ I, ∃ row,
      dictGet (pyDict (fun r => r.url) (active_rows (register_files db d I t1) d)) f.url =
        some row ∧ row.hash = f.hash := by
    intro f hf
    obtain ⟨r, hget, hd, hurl, hhash, _, hact, _⟩ :=
      register_row_fields db d I t1 hnd f hf
    have hmem : r ∈ register_files db d I t1 := List.mem_of_find?_eq_some hget
    have hactive : r ∈ active_rows (register_files db d I t1) d :=
      List.mem_filter.mpr ⟨hmem, by simp [hd, hact]⟩
    refine ⟨r, ?_, hhash⟩
    rw [known_lookup _ _ hwf1]
    apply find?_eq_some_of_unique _ hactive (by simp [hurl])
    intro b hb hpb
    simp only [decide_eq_true_eq] at hpb
    have hbmem : b ∈ register_files db d I t1 := (List.mem_filter.mp hb).1
    have hbd : b.domain = d := by
      have := List.of_mem_filter hb
      simp only [Bool.and_eq_true, decide_eq_true_eq] at this
      exact this.1
    exact DBWF_unique hwf1 hbmem hmem (hbd.trans hd.symm) (hpb.trans hurl.symm)
  have hfold : I.foldl
      (check_step (pyDict (fun r => r.url) (active_rows (register_files db d I t1) d)))
      ([], []) = ([], []) :=
    check_fold_neutral _ I ([], []) hkey
  refine ⟨?_, ?_, ?_⟩
  · show (I.foldl
      (check_step (pyDict (fun r => r.url) (active_rows (register_files db d I t1) d)))
      ([], [])).1 = []
    rw [hfold]
  · show (I.foldl
      (check_step (pyDict (fun r => r.url) (active_rows (register_files db d I t1) d)))
      ([], [])).2 = []
    rw [hfold]
  · apply register_projFS
    intro f hf
    obtain ⟨r, hget, _⟩ := register_row_fields db d I t1 hnd f hf
    rw [hget]
    rfl

/-- Witness for C5 on the same concrete store and inventory as C2's witness. -/
theorem C5_reconcile_idempotent_witness :
    DBWF [⟨"example.com", "https://example.com/a.js", "a.js", "h1", 10, 20, true⟩,
          ⟨"other.com", "https://other.com/x.js", "x.js", "h9", 1, 2, true⟩] ∧
    (urlsOf [⟨"https://example.com/a.js", "a.js", "h2"⟩,
             ⟨"https://example.com/b.js", "b.js", "h3"⟩]).Nodup ∧
    IdempotentSpec
      [⟨"example.com", "https://example.com/a.js", "a.js", "h1", 10, 20, true⟩,
       ⟨"other.com", "https://other.com/x.js", "x.js", "h9", 1, 2, true⟩]
      "example.com"
      [⟨"https://example.com/a.js", "a.js", "h2"⟩,
       ⟨"https://example.com/b.js", "b.js", "h3"⟩]
      100 200 :=
  ⟨by unfold DBWF; decide, by decide,
   C5_reconcile_idempotent _ _ _ _ _ (by unfold DBWF; decide) (by decide)⟩

/-! ## Alert deduplication gate: `should_alert` / `record_alert`

The `alerts` table is a list of records.  Note that `init_db` declares
`UNIQUE(domain, file_url, alert_type, content_hash)` on this table, so an
`INSERT` of a key that is already present fails with an integrity error;
`record_alert` therefore returns `Except`. -/

/-- One row of the `alerts` table. -/
structure Alert where
  domain : String
  file_url : String
  alert_type : String
  content_hash : String
  alerted_at : Int
deriving DecidableEq, Repr

/-- `timedelta(days=7)` in seconds. -/
def sevenDays : Int := 7 * 86400

/-- `should_alert` from api/app.py: count key-matching alert rows with
`alerted_at > now - 7 days` and allow the alert iff the count is zero. -/
def should_alert (alerts : List Alert) (d u ty h : String) (now : Int) : Bool :=
  (alerts.filter (fun a =>
    decide (a.domain = d ∧ a.file_url = u ∧ a.alert_type = ty ∧
      a.content_hash = h ∧ a.alerted_at > now - sevenDays))).length == 0

/-- `record_alert` from api/app.py: `INSERT INTO alerts ...`.  The table's
`UNIQUE(domain, file_url, alert_type, content_hash)` constraint makes the
insert fail when a row with the same key already exists. -/
def record_alert (alerts : List Alert) (d u ty h : String) (now : Int) :
    Except String (List Alert) :=
  if alerts.any (fun a =>
      decide (a.domain = d ∧ a.file_url = u ∧ a.alert_type = ty ∧ a.content_hash = h)) then
    Except.error "UNIQUE constraint failed: alerts.domain, alerts.file_url, alerts.alert_type, alerts.content_hash"
  else
    Except.ok (alerts ++ [{ domain := d, file_url := u, alert_type := ty,
                            content_hash := h, alerted_at := now }])

theorem should_alert_false_iff (alerts : List Alert) (d u ty h : String) (now : Int) :
    should_alert alerts d u ty h now = false ↔
      ∃ a ∈ alerts, a.domain = d ∧ a.file_url = u ∧ a.alert_type = ty ∧
        a.content_hash = h ∧ now - sevenDays < a.alerted_at := by
  unfold should_alert
  rw [beq_eq_false_iff_ne]
  rw [ne_eq, List.length_eq_zero, List.filter_eq_nil_iff]
  push_neg
  constructor
  · rintro ⟨a, ha, hp⟩
    rw [decide_eq_true_eq] at hp
    exact ⟨a, ha, hp.1, hp.2.1, hp.2.2.1, hp.2.2.2.1, hp.2.2.2.2⟩
  · rintro ⟨a, ha, h1, h2, h3, h4, h5⟩
    exact ⟨a, ha, by rw [decide_eq_true_eq]; exact ⟨h1, h2, h3, h4, h5⟩⟩

theorem should_alert_true_iff (alerts : List Alert) (d u ty h : String) (now : Int) :
    should_alert alerts d u ty h now = true ↔
      ∀ a ∈ alerts, a.domain = d → a.file_url = u → a.alert_type = ty →
        a.content_hash = h → a.alerted_at ≤ now - sevenDays := by
  unfold should_alert
  rw [beq_iff_eq, List.length_eq_zero, List.filter_eq_nil_iff]
  constructor
  · intro hall a ha h1 h2 h3 h4
    have := hall a ha
    rw [decide_eq_true_eq] at this
    push_neg at this
    exact this h1 h2 h3 h4
  · intro hall a ha
    rw [decide_eq_true_eq]
    push_neg
    exact hall a ha

theorem record_alert_ok {alerts : List Alert} {d u ty h : String} {now : Int}
    {fresh : List Alert} (hok : record_alert alerts d u ty h now = Except.ok fresh) :
    fresh = alerts ++ [{ domain := d, file_url := u, alert_type := ty,
                         content_hash := h, alerted_at := now }] := by
  unfold record_alert at hok
  by_cases hdup : alerts.any (fun a =>
      decide (a.domain = d ∧ a.file_url = u ∧ a.alert_type = ty ∧ a.content_hash = h)) = true
  · rw [if_pos hdup] at hok
    cases hok
  · rw [if_neg hdup] at hok
    exact (Except.ok.inj hok).symm

/-- C3's claim as written: the gate reports "already alerted" exactly when a
key-matching record lies in the closed window. -/
def ClosedWindowSpec (alerts : List Alert) (d u ty h : String) (now : Int) : Prop :=
  should_alert alerts d u ty h now = false ↔
    ∃ a ∈ alerts, a.domain = d ∧ a.file_url = u ∧ a.alert_type = ty ∧
      a.content_hash = h ∧ now - sevenDays ≤ a.alerted_at ∧ a.alerted_at ≤ now

/-- C3 counterexample: a record fired exactly `7 days` before `now` lies in the
claimed closed interval, yet the code (which tests `alerted_at > now - 7 days`
strictly) does not count it, so `should_alert` returns true. -/
theorem C3_closed_window_counterexample :
    ¬ ClosedWindowSpec [⟨"example.com", "a.js", "modified_file", "h2", 0⟩]
        "example.com" "a.js" "modified_file" "h2" 604800 := by
  unfold ClosedWindowSpec
  decide

/-- C3 (amended): "already alerted" holds iff a key-matching record has
`firedAt` strictly greater than `now - 7 days` (no upper bound); consequently
`should_alert` is false immediately after a successful `record_alert` of the
same key, and true again once at least the window has elapsed past the last
key-matching record. -/
theorem C3_dedup_window_amended (alerts : List Alert) (d u ty h : String) (now : Int) :
    (should_alert alerts d u ty h now = false ↔
      ∃ a ∈ alerts, a.domain = d ∧ a.file_url = u ∧ a.alert_type = ty ∧
        a.content_hash = h ∧ now - sevenDays < a.alerted_at) ∧
    (∀ t fresh, record_alert alerts d u ty h t = Except.ok fresh →
      should_alert fresh d u ty h t = false) ∧
    (∀ t e fresh, record_alert alerts d u ty h t = Except.ok fresh →
      sevenDays ≤ e →
      (∀ a ∈ alerts, a.domain = d → a.file_url = u → a.alert_type = ty →
        a.content_hash = h → a.alerted_at ≤ t) →
      should_alert fresh d u ty h (t + e) = true) := by
  refine ⟨should_alert_false_iff alerts d u ty h now, ?_, ?_⟩
  · intro t fresh hok
    rw [record_alert_ok hok]
    rw [should_alert_false_iff]
    refine ⟨{ domain := d, file_url := u, alert_type := ty,
              content_hash := h, alerted_at := t }, ?_, rfl, rfl, rfl, rfl, ?_⟩
    · simp
    · show t - sevenDays < t
      have : (0 : Int) < sevenDays := by unfold sevenDays; omega
      omega
  · intro t e fresh hok he hbound
    rw [record_alert_ok hok]
    rw [should_alert_true_iff]
    intro a ha h1 h2 h3 h4
    rcases List.mem_append.mp ha with hmem | hmem
    · have := hbound a hmem h1 h2 h3 h4
      omega
    · simp only [List.mem_singleton] at hmem
      subst hmem
      show t ≤ t + e - sevenDays
      omega

/-- Witness for C3's amended theorem at a concrete store and key. -/
theorem C3_dedup_window_amended_witness :
    (should_alert [⟨"example.com", "a.js", "modified_file", "h2", 0⟩]
        "example.com" "a.js" "modified_file" "h2" 300000 = false ↔
      ∃ a ∈ [(⟨"example.com", "a.js", "modified_file", "h2", 0⟩ : Alert)],
        a.domain = "example.com" ∧ a.file_url = "a.js" ∧
        a.alert_type = "modified_file" ∧ a.content_hash = "h2" ∧
        (300000 : Int) - sevenDays < a.alerted_at) ∧
    (∀ t fresh, record_alert [⟨"example.com", "a.js", "modified_file", "h2", 0⟩]
        "example.com" "a.js" "modified_file" "h2" t = Except.ok fresh →
      should_alert fresh "example.com" "a.js" "modified_file" "h2" t = false) ∧
    (∀ t e fresh, record_alert [⟨"example.com", "a.js", "modified_file", "h2", 0⟩]
        "example.com" "a.js" "modified_file" "h2" t = Except.ok fresh →
      sevenDays ≤ e →
      (∀ a ∈ [(⟨"example.com", "a.js", "modified_file", "h2", 0⟩ : Alert)],
        a.domain = "example.com" → a.file_url = "a.js" →
        a.alert_type = "modified_file" → a.content_hash = "h2" → a.alerted_at ≤ t) →
      should_alert fresh "example.com" "a.js" "modified_file" "h2" (t + e) = true) :=
  C3_dedup_window_amended
    [⟨"example.com", "a.js", "modified_file", "h2", 0⟩]
    "example.com" "a.js" "modified_file" "h2" 300000

/-- C4: the code enforces key uniqueness on the alert store, contradicting the
append-only design: eight days after a key fired, `should_alert` re-arms and
says the alert should fire again, but recording it hits the table's
`UNIQUE(domain, file_url, alert_type, content_hash)` constraint and fails
instead of appending a second record. -/
theorem C4_alerts_unique_constraint_bug :
    should_alert [⟨"example.com", "a.js", "modified_file", "h2", 0⟩]
      "example.com" "a.js" "modified_file" "h2" 691200 = true ∧
    record_alert [⟨"example.com", "a.js", "modified_file", "h2", 0⟩]
      "example.com" "a.js" "modified_file" "h2" 691200 =
      Except.error "UNIQUE constraint failed: alerts.domain, alerts.file_url, alerts.alert_type, alerts.content_hash" :=
  ⟨by decide, rfl⟩

/-! ## The API layer as state transformers (C10) -/

/-- The persistent state behind the API: the `js_files` and `alerts` tables. -/
structure AppState where
  js_files : List Row
  alerts : List Alert
deriving DecidableEq, Repr

/-- The `check-new-files` endpoint: runs only `SELECT` statements, commits
nothing, and returns the classification. -/
def check_new_files_route (s : AppState) (d : String) (files : List JSFile) :
    AppState × CheckResult :=
  (s, check_new_files s.js_files d files)

/-- The `should-alert` endpoint: runs only a `SELECT COUNT(*)`, commits
nothing, and returns the decision. -/
def should_alert_route (s : AppState) (d u ty h : String) (now : Int) :
    AppState × Bool :=
  (s, should_alert s.alerts d u ty h now)

/-- The `register-files` endpoint: commits the reconciled `js_files` table. -/
def register_files_route (s : AppState) (d : String) (files : List JSFile)
    (now : Int) : AppState × Nat :=
  ({ s with js_files := register_files s.js_files d files now }, files.length)

/-- The `record-alert` endpoint: commits the appended `alerts` table, or
reports the integrity error. -/
def record_alert_route (s : AppState) (d u ty h : String) (now : Int) :
    AppState × Bool :=
  match record_alert s.alerts d u ty h now with
  | Except.ok fresh => ({ s with alerts := fresh }, true)
  | Except.error _ => (s, false)

/-- C10: the classification query and the dedup decision are read-only — they
return the store exactly as given, with all asset rows and alert records
untouched; their handlers contain no `UPDATE`/`INSERT` (and no commit). -/
theorem C10_read_endpoints_pure (s : AppState) (d u ty h : String)
    (files : List JSFile) (now : Int) :
    (check_new_files_route s d files).1 = s ∧
    (should_alert_route s d u ty h now).1 = s ∧
    (check_new_files_route s d files).1.js_files = s.js_files ∧
    (check_new_files_route s d files).1.alerts = s.alerts ∧
    (should_alert_route s d u ty h now).1.js_files = s.js_files ∧
    (should_alert_route s d u ty h now).1.alerts = s.alerts :=
  ⟨rfl, rfl, rfl, rfl, rfl, rfl⟩

/-! ## URL handling: scripts/extract_js.py

`urllib.parse.urljoin` / `urlparse` are the Python standard library; they are
modelled here restricted to the URL shapes this code produces: absolute
`scheme://host/path?query` URLs, protocol-relative `//host/path`,
root-relative `/path` and bare relative references. -/

/-- Split the characters of a URL at the first `://`: scheme name before it,
remainder after it. -/
def splitAfterScheme : List Char → Option (List Char × List Char)
  | [] => none
  | ':' :: '/' :: '/' :: rest => some ([], rest)
  | c :: cs => (splitAfterScheme cs).map (fun p => (c :: p.1, p.2))

/-- The host (netloc) of an absolute URL, as `urlparse(u).netloc`. -/
def urlHost (u : String) : String :=
  match splitAfterScheme u.data with
  | none => ""
  | some (_, rest) =>
      ⟨rest.takeWhile (fun c => decide (c ≠ '/' ∧ c ≠ '?' ∧ c ≠ '#'))⟩

/-- The path of a URL, as `urlparse(u).path`. -/
def urlPath (u : String) : String :=
  match splitAfterScheme u.data with
  | some (_, rest) =>
      let netloc := rest.takeWhile (fun c => decide (c ≠ '/' ∧ c ≠ '?' ∧ c ≠ '#'))
      ⟨(rest.drop netloc.length).takeWhile (fun c => decide (c ≠ '?' ∧ c ≠ '#'))⟩
  | none => ⟨u.data.takeWhile (fun c => decide (c ≠ '?' ∧ c ≠ '#'))⟩

/-- Model of `urllib.parse.urljoin(base, rel)` for the shapes exercised here:
a `rel` carrying its own scheme wins; `//...` keeps the base scheme;
`/...` resolves against the base origin; anything else resolves against the
base directory. -/
def urljoin (base rel : String) : String :=
  if (splitAfterScheme rel.data).isSome then rel
  else
    match splitAfterScheme base.data with
    | none => rel
    | some (scheme, rest) =>
      let netloc := rest.takeWhile (fun c => decide (c ≠ '/' ∧ c ≠ '?' ∧ c ≠ '#'))
      if pyStartsWith rel "//" then ⟨(scheme ++ [':']) ++ rel.data⟩
      else if pyStartsWith rel "/" then
        ⟨(scheme ++ [':', '/', '/'] ++ netloc) ++ rel.data⟩
      else
        let path := (rest.drop netloc.length).takeWhile (fun c => decide (c ≠ '?' ∧ c ≠ '#'))
        let dir := (path.reverse.dropWhile (fun c => decide (c ≠ '/'))).reverse
        let dir := if dir.isEmpty then ['/'] else dir
        ⟨(scheme ++ [':', '/', '/'] ++ netloc ++ dir) ++ rel.data⟩

/-- Whatever `urljoin` returns is either `rel` itself or `rel` extended by a
prefix (it never alters `rel`'s tail). -/
theorem urljoin_shape (base rel : String) :
    urljoin base rel = rel ∨ ∃ pre, urljoin base rel = ⟨pre ++ rel.data⟩ := by
  unfold urljoin
  by_cases h1 : (splitAfterScheme rel.data).isSome
  · rw [if_pos h1]; exact Or.inl rfl
  · rw [if_neg h1]
    cases hb : splitAfterScheme base.data with
    | none => exact Or.inl rfl
    | some p =>
      by_cases h2 : pyStartsWith rel "//" = true
      · simp only [h2, if_true]
        exact Or.inr ⟨_, rfl⟩
      · simp only [h2, if_false]
        by_cases h3 : pyStartsWith rel "/" = true
        · simp only [h3, if_true]
          exact Or.inr ⟨_, rfl⟩
        · simp only [h3, if_false]
          exact Or.inr ⟨_, rfl⟩

/-! ## Asset extraction: `JSExtractor` -/

/-- Python `set.add` on a set modelled as a duplicate-free list in insertion
order. -/
def setAdd (l : List String) (s : String) : List String :=
  if s ∈ l then l else l ++ [s]

/-- Python `set.union`. -/
def setUnion (l1 l2 : List String) : List String := l2.foldl setAdd l1

/-- The shared URL-resolution chain of `extract_js_from_html` (script branch)
and `extract_from_response_text`: protocol-relative gets `https:` prefixed,
root-relative and bare-relative are joined against the page URL, absolute
stays. -/
def resolve_candidate (base_url s : String) : String :=
  if pyStartsWith s "//" then "https:" ++ s
  else if pyStartsWith s "/" then urljoin base_url s
  else if !(pyStartsWith s "http://" || pyStartsWith s "https://") then urljoin base_url s
  else s

/-- `JSExtractor.extract_js_from_html`: script elements with a `src` are
resolved and kept iff the resolved URL ends in `.js` or contains `.js?`;
link elements with an `href` are kept iff the raw href ends in `.js` (then
only `//`- and `/`-relative hrefs are resolved).  The parsed element
attributes (`soup.find_all`) are inputs, BeautifulSoup being an external
library. -/
def extract_js_from_html (scriptSrcs linkHrefs : List String) (base_url : String) :
    List String :=
  let js1 := scriptSrcs.foldl (fun acc src =>
    if src = "" then acc
    else
      let src := resolve_candidate base_url src
      if pyEndsWith src ".js" || pyContains src ".js?" then setAdd acc src else acc) []
  linkHrefs.foldl (fun acc href =>
    if pyEndsWith href ".js" then
      let href :=
        if pyStartsWith href "//" then "https:" ++ href
        else if pyStartsWith href "/" then urljoin base_url href
        else href
      setAdd acc href
    else acc) js1

/-- `JSExtractor.extract_from_response_text`: every regex match (the
`re.findall` results over the four patterns are inputs, `re` being the
standard library) is resolved, then kept iff `.js` occurs in its lowercase
form. -/
def extract_from_response_text (raw_matches : List String) (base_url : String) :
    List String :=
  raw_matches.foldl (fun acc m =>
    let m := resolve_candidate base_url m
    if pyContains (pyLower m) ".js" then setAdd acc m else acc) []

/-- The qualification predicate exactly as the specification words it: the
URL's path ends in `.js`, or the URL contains `.js?`. -/
def qualifiesSpec (u : String) : Prop :=
  pyEndsWith (urlPath u) ".js" = true ∨ pyContains u ".js?" = true

theorem mem_setAdd {l : List String} {s u : String} :
    u ∈ setAdd l s ↔ u ∈ l ∨ u = s := by
  unfold setAdd
  by_cases h : s ∈ l
  · rw [if_pos h]
    constructor
    · exact Or.inl
    · rintro (hu | rfl)
      · exact hu
      · exact h
  · rw [if_neg h]
    simp

theorem mem_foldl_filtered {β : Type} (P : String → Prop)
    (step : List String → β → List String)
    (hstep : ∀ acc b u, u ∈ step acc b → u ∈ acc ∨ P u) :
    ∀ (xs : List β) (acc : List String) (u), u ∈ xs.foldl step acc → u ∈ acc ∨ P u := by
  intro xs
  induction xs with
  | nil => intro acc u hu; exact Or.inl hu
  | cons x xs ih =>
    intro acc u hu
    rcases ih (step acc x) u hu with h | h
    · exact hstep acc x u h
    · exact Or.inr h

theorem pyEndsWith_mk_append (pre : List Char) (rel t : String)
    (h : pyEndsWith rel t = true) : pyEndsWith ⟨pre ++ rel.data⟩ t = true := by
  unfold pyEndsWith at h ⊢
  simp only [decide_eq_true_eq] at h ⊢
  exact h.trans (List.suffix_append pre rel.data)

theorem pyEndsWith_str_append (a b t : String) (h : pyEndsWith b t = true) :
    pyEndsWith (a ++ b) t = true := by
  unfold pyEndsWith at h ⊢
  simp only [decide_eq_true_eq] at h ⊢
  rw [String.data_append]
  exact h.trans (List.suffix_append a.data b.data)

/-- C6 (amended): the two discovery sources do not apply the same rule.  The
markup source guarantees that every produced URL ends in `.js` or contains
`.js?` (script candidates are filtered by exactly that test on the resolved
URL, link candidates by the stricter raw ends-with-`.js` test, which survives
resolution); the raw-text source guarantees only that `.js` occurs somewhere
in the lowercased URL. -/
theorem C6_extraction_filters_amended (scriptSrcs linkHrefs raw_matches : List String)
    (base_url : String) :
    (∀ u ∈ extract_js_from_html scriptSrcs linkHrefs base_url,
      pyEndsWith u ".js" = true ∨ pyContains u ".js?" = true) ∧
    (∀ u ∈ extract_from_response_text raw_matches base_url,
      pyContains (pyLower u) ".js" = true) := by
  constructor
  · intro u hu
    unfold extract_js_from_html at hu
    have hlink := mem_foldl_filtered
      (fun u => pyEndsWith u ".js" = true ∨ pyContains u ".js?" = true)
      _ ?_ linkHrefs _ u hu
    case _ =>
      rcases hlink with hjs1 | hP
      · -- u came from the script-element fold
        have hscript := mem_foldl_filtered
          (fun u => pyEndsWith u ".js" = true ∨ pyContains u ".js?" = true)
          _ ?_ scriptSrcs [] u hjs1
        case _ =>
          rcases hscript with hnil | hP
          · cases hnil
          · exact hP
        -- step soundness for the script fold
        intro acc src v hv
        dsimp only at hv
        by_cases h0 : src = ""
        · rw [if_pos h0] at hv
          exact Or.inl hv
        · rw [if_neg h0] at hv
          by_cases hq : (pyEndsWith (resolve_candidate base_url src) ".js" ||
              pyContains (resolve_candidate base_url src) ".js?") = true
          · rw [if_pos hq] at hv
            rcases mem_setAdd.mp hv with h | rfl
            · exact Or.inl h
            · rw [Bool.or_eq_true] at hq
              exact Or.inr hq
          · rw [if_neg hq] at hv
            exact Or.inl hv
      · exact hP
    -- step soundness for the link fold
    intro acc href v hv
    dsimp only at hv
    by_cases hjs : pyEndsWith href ".js" = true
    · rw [if_pos hjs] at hv
      rcases mem_setAdd.mp hv with h | rfl
      · exact Or.inl h
      · refine Or.inr (Or.inl ?_)
        by_cases h2 : pyStartsWith href "//" = true
        · simp only [h2, if_true]
          exact pyEndsWith_str_append "https:" href ".js" hjs
        · simp only [h2, if_false]
          by_cases h3 : pyStartsWith href "/" = true
          · simp only [h3, if_true]
            rcases urljoin_shape base_url href with he | ⟨pre, he⟩
            · rw [he]; exact hjs
            · rw [he]; exact pyEndsWith_mk_append pre href ".js" hjs
          · simp only [h3, if_false]
            exact hjs
    · rw [if_neg hjs] at hv
      exact Or.inl hv
  · intro u hu
    unfold extract_from_response_text at hu
    have h := mem_foldl_filtered (fun u => pyContains (pyLower u) ".js" = true)
      _ ?_ raw_matches [] u hu
    case _ =>
      rcases h with hnil | hP
      · cases hnil
      · exact hP
    intro acc m v hv
    dsimp only at hv
    by_cases hq : pyContains (pyLower (resolve_candidate base_url m)) ".js" = true
    · rw [if_pos hq] at hv
      rcases mem_setAdd.mp hv with h | rfl
      · exact Or.inl h
      · exact Or.inr hq
    · rw [if_neg hq] at hv
      exact Or.inl hv

/-- Witness for C6's amended theorem at concrete extractor inputs. -/
theorem C6_extraction_filters_amended_witness :
    (∀ u ∈ extract_js_from_html ["/app.js"] ["/lib.js"] "https://example.com/",
      pyEndsWith u ".js" = true ∨ pyContains u ".js?" = true) ∧
    (∀ u ∈ extract_from_response_text ["app.js"] "https://example.com/",
      pyContains (pyLower u) ".js" = true) :=
  C6_extraction_filters_amended ["/app.js"] ["/lib.js"] ["app.js"] "https://example.com/"

/-- C6 counterexample: the raw-text pattern
`src=["']([^"']+\.js[^"']*)["']` matches the whole attribute value in
`<script src="https://cdn.example.com/app.js.map"></script>`, producing the
candidate `https://cdn.example.com/app.js.map`; the code's raw-text filter
(`.js` occurs as a substring, case-insensitively) keeps it, although its path
ends in `.map`, not `.js`, and it contains no `.js?` — so the claimed
qualification predicate does not hold for everything the raw-text source
emits. -/
theorem C6_extraction_filters_counterexample :
    "https://cdn.example.com/app.js.map" ∈
      extract_from_response_text ["https://cdn.example.com/app.js.map"]
        "https://example.com/" ∧
    ¬ qualifiesSpec "https://cdn.example.com/app.js.map" := by
  constructor
  · unfold extract_from_response_text resolve_candidate
    decide
  · unfold qualifiesSpec urlPath
    decide

/-! ## Traversal: `JSExtractor.crawl_for_js` -/

/-- The outbound-link loop of `crawl_for_js` (lines 151-157): every anchor
href is resolved against the page URL and appended to the frontier when the
target domain occurs in the resolved URL (a substring test) and the URL has
not been visited. -/
def enqueue_links (domain page_url : String) (hrefs visited to_visit : List String) :
    List String :=
  hrefs.foldl (fun q href =>
    let full_url := urljoin page_url href
    if pyContains full_url domain && decide (full_url ∉ visited) then q ++ [full_url]
    else q) to_visit

/-- What one fetched page yields, as parsed by the external libraries:
script/link element attributes and raw-text regex matches for asset
discovery, anchor hrefs for traversal. -/
structure PageData where
  scriptSrcs : List String
  linkHrefs : List String
  textMatches : List String
  anchorHrefs : List String
deriving Repr

/-- One entry of the crawler's `all_js_files` dict. -/
structure FoundFile where
  url : String
  filename : String
  hash : String
  source_page : String
deriving DecidableEq, Repr

/-- `os.path.basename(urlparse(js_url).path)`, falling back to
`js_url.split('/')[-1]` when empty. -/
def basenameOf (u : String) : String :=
  let path := urlPath u
  let b : String := ⟨(path.data.reverse.takeWhile (fun c => decide (c ≠ '/'))).reverse⟩
  if b = "" then ⟨(u.data.reverse.takeWhile (fun c => decide (c ≠ '/'))).reverse⟩ else b

/-- The per-asset loop of `crawl_for_js`: each not-yet-seen URL of the page is
fetched and hashed (`hashOf`, the external network fetch; an empty string
models a failed download) and recorded only when the hash is non-empty. -/
def add_page_files (hashOf : String → String) (page_url : String)
    (found : List (String × FoundFile)) (page_js : List String) :
    List (String × FoundFile) :=
  page_js.foldl (fun fs js_url =>
    if fs.any (fun p => decide (p.1 = js_url)) then fs
    else
      let h := hashOf js_url
      if h ≠ "" then
        fs ++ [(js_url, { url := js_url, filename := basenameOf js_url, hash := h,
                          source_page := page_url })]
      else fs) found

/-- The `while to_visit and len(visited) < max_pages` loop of `crawl_for_js`.
`web url = none` models `get_page_content` returning the empty string (fetch
failure); the visited set and the FIFO frontier are explicit.  The function is
total: Lean accepts it by well-founded recursion on
`(max_pages - |visited|, |frontier|)`, which is exactly the termination
argument for cyclic page graphs. -/
def crawl_aux (web : String → Option PageData) (hashOf : String → String)
    (domain : String) (max_pages : Nat) (visited to_visit : List String)
    (found : List (String × FoundFile)) : List String × List (String × FoundFile) :=
  match to_visit with
  | [] => (visited, found)
  | url :: rest =>
    if h : visited.length < max_pages then
      if url ∈ visited then crawl_aux web hashOf domain max_pages visited rest found
      else
        match web url with
        | none => crawl_aux web hashOf domain max_pages (visited ++ [url]) rest found
        | some pd =>
          let page_js := setUnion (extract_js_from_html pd.scriptSrcs pd.linkHrefs url)
                                  (extract_from_response_text pd.textMatches url)
          let found2 := add_page_files hashOf url found page_js
          let tv2 := enqueue_links domain url pd.anchorHrefs (visited ++ [url]) rest
          crawl_aux web hashOf domain max_pages (visited ++ [url]) tv2 found2
    else (visited, found)
termination_by (max_pages - visited.length, to_visit.length)
decreasing_by
  · apply Prod.Lex.right
    simp
  · apply Prod.Lex.left
    simp
    omega
  · apply Prod.Lex.left
    simp
    omega

/-- `JSExtractor.crawl_for_js`: run the loop from the domain root and return
`list(all_js_files.values())`. -/
def crawl_for_js (web : String → Option PageData) (hashOf : String → String)
    (domain : String) (max_pages : Nat) : List FoundFile :=
  ((crawl_aux web hashOf domain max_pages [] ["https://" ++ domain] []).2).map Prod.snd

theorem crawl_aux_visited_bound (web : String → Option PageData)
    (hashOf : String → String) (domain : String) (max_pages : Nat) :
    ∀ (k : Nat) (visited to_visit : List String) (found : List (String × FoundFile)),
      max_pages - visited.length ≤ k →
      ((crawl_aux web hashOf domain max_pages visited to_visit found).1).length ≤
        max visited.length max_pages := by
  intro k
  induction k with
  | zero =>
    intro visited to_visit found hk
    have hle : ¬ visited.length < max_pages := by omega
    cases to_visit with
    | nil =>
      unfold crawl_aux
      exact Nat.le_max_left _ _
    | cons url rest =>
      unfold crawl_aux
      rw [dif_neg hle]
      exact Nat.le_max_left _ _
  | succ k ih =>
    intro visited to_visit found hk
    induction to_visit generalizing found with
    | nil =>
      unfold crawl_aux
      exact Nat.le_max_left _ _
    | cons url rest ihr =>
      by_cases h : visited.length < max_pages
      · unfold crawl_aux
        rw [dif_pos h]
        by_cases hv : url ∈ visited
        · rw [if_pos hv]
          exact ihr found
        · rw [if_neg hv]
          have hlen : (visited ++ [url]).length = visited.length + 1 := by simp
          have hk' : max_pages - (visited ++ [url]).length ≤ k := by
            rw [hlen]; omega
          have hmax : max (visited ++ [url]).length max_pages = max_pages := by
            rw [hlen]; exact Nat.max_eq_right h
          cases hw : web url with
          | none =>
            have hb := ih (visited ++ [url]) rest found hk'
            rw [hmax] at hb
            exact hb.trans (Nat.le_max_right _ _)
          | some pd =>
            have hb := ih (visited ++ [url])
              (enqueue_links domain url pd.anchorHrefs (visited ++ [url]) rest)
              (add_page_files hashOf url found
                (setUnion (extract_js_from_html pd.scriptSrcs pd.linkHrefs url)
                  (extract_from_response_text pd.textMatches url))) hk'
            rw [hmax] at hb
            exact hb.trans (Nat.le_max_right _ _)
      · unfold crawl_aux
        rw [dif_neg h]
        exact Nat.le_max_left _ _

/-- A five-page demo site: the root links to five in-domain pages, each page
carries one script. -/
def demoWeb : String → Option PageData := fun u =>
  if u = "https://demo.example" then
    some { scriptSrcs := ["/app.js"], linkHrefs := [], textMatches := [],
           anchorHrefs := ["/p1", "/p2", "/p3", "/p4", "/p5"] }
  else if u = "https://demo.example/p1" then
    some { scriptSrcs := ["/extra1.js"], linkHrefs := [], textMatches := [],
           anchorHrefs := [] }
  else if u = "https://demo.example/p2" then
    some { scriptSrcs := ["/extra2.js"], linkHrefs := [], textMatches := [],
           anchorHrefs := [] }
  else none

/-- A hash oracle that succeeds on every URL. -/
def demoHash : String → String := fun u => "sha-" ++ u

/-- A cyclic two-page site: the root links to `/p1`, which links back to
itself. -/
def cycWeb : String → Option PageData := fun u =>
  if u = "https://cyc.example" then
    some { scriptSrcs := [], linkHrefs := [], textMatches := [],
           anchorHrefs := ["/p1"] }
  else if u = "https://cyc.example/p1" then
    some { scriptSrcs := [], linkHrefs := [], textMatches := [],
           anchorHrefs := ["/p1"] }
  else none

/-- C8: the traversal loop is total (the definition of `crawl_aux` is accepted
by well-founded recursion on `(max_pages - |visited|, |frontier|)`, the
visited set preventing revisits), the number of visited pages never exceeds
`max_pages` whatever the frontier does; with `max_pages = 1` on a root page
linking to five in-domain pages exactly the root is visited and only its
assets are returned; and a cyclic link graph terminates with each page visited
once. -/
theorem C8_page_budget_and_termination (web : String → Option PageData)
    (hashOf : String → String) (domain : String) (max_pages : Nat) :
    ((crawl_aux web hashOf domain max_pages [] ["https://" ++ domain] []).1).length ≤
      max_pages ∧
    (crawl_aux demoWeb demoHash "demo.example" 1 [] ["https://demo.example"] []).1 =
      ["https://demo.example"] ∧
    crawl_for_js demoWeb demoHash "demo.example" 1 =
      [{ url := "https://demo.example/app.js", filename := "app.js",
         hash := "sha-https://demo.example/app.js",
         source_page := "https://demo.example" }] ∧
    (crawl_aux cycWeb demoHash "cyc.example" 10 [] ["https://cyc.example"] []).1 =
      ["https://cyc.example", "https://cyc.example/p1"] := by
  refine ⟨?_, ?_, ?_, ?_⟩
  · have hb := crawl_aux_visited_bound web hashOf domain max_pages max_pages
      [] ["https://" ++ domain] [] (by omega)
    simpa using hb
  · simp +decide [crawl_aux, crawl_for_js, demoWeb, demoHash, setUnion, setAdd,
      extract_js_from_html, extract_from_response_text, resolve_candidate,
      add_page_files, enqueue_links, basenameOf, urljoin, urlPath, urlHost,
      splitAfterScheme, pyStartsWith, pyEndsWith, pyContains, pyLower, lowerChar]
  · simp +decide [crawl_aux, crawl_for_js, demoWeb, demoHash, setUnion, setAdd,
      extract_js_from_html, extract_from_response_text, resolve_candidate,
      add_page_files, enqueue_links, basenameOf, urljoin, urlPath, urlHost,
      splitAfterScheme, pyStartsWith, pyEndsWith, pyContains, pyLower, lowerChar]
  · simp +decide [crawl_aux, crawl_for_js, cycWeb, demoHash, setUnion, setAdd,
      extract_js_from_html, extract_from_response_text, resolve_candidate,
      add_page_files, enqueue_links, basenameOf, urljoin, urlPath, urlHost,
      splitAfterScheme, pyStartsWith, pyEndsWith, pyContains, pyLower, lowerChar]

/-- C7: the crawler's scope filter is a substring test on the whole resolved
URL, not a host check, and there is no already-queued check — contradicting
the code's own comment ("Only follow links within the same domain").  An
off-host link whose URL merely mentions the target domain is enqueued (and
would be fetched), and a link already sitting in the frontier is enqueued a
second time. -/
theorem C7_scope_filter_substring_bug :
    enqueue_links "example.com" "https://example.com/"
        ["https://evil.com/track?ref=example.com"] ["https://example.com/"] [] =
      ["https://evil.com/track?ref=example.com"] ∧
    urlHost "https://evil.com/track?ref=example.com" = "evil.com" ∧
    urlHost "https://evil.com/track?ref=example.com" ≠ "example.com" ∧
    enqueue_links "example.com" "https://example.com/"
        ["/p1"] ["https://example.com/"] ["https://example.com/p1"] =
      ["https://example.com/p1", "https://example.com/p1"] := by
  refine ⟨?_, ?_, ?_, ?_⟩ <;> decide

/-! ## Snapshot selection: `ChangeDetector.get_latest_snapshot` -/

/-- The filename filter of `get_latest_snapshot`: `snapshot_*.json`. -/
def snapFilterFn (f : String) : Bool :=
  pyStartsWith f "snapshot_" && pyEndsWith f ".json"

/-- `ChangeDetector.get_latest_snapshot` from scripts/compare_changes.py,
modelled on the directory listing (`none` = directory missing): filter to
snapshot files, sort descending, then pick index 1 when more than one exists,
else index 0.  The JSON loading of the chosen file is outside the model. -/
def get_latest_snapshot (dirListing : Option (List String)) : Option String :=
  match dirListing with
  | none => none
  | some files =>
    let snapshots := files.filter snapFilterFn
    if snapshots.isEmpty then none
    else
      let sorted := snapshots.mergeSort (fun a b => decide (b ≤ a))
      if 1 < sorted.length then sorted[1]? else sorted[0]?

theorem descending_trans :
    ∀ (a b c : String), (fun a b => decide (b ≤ a)) a b = true →
      (fun a b => decide (b ≤ a)) b c = true → (fun a b => decide (b ≤ a)) a c = true := by
  intro a b c h1 h2
  simp only [decide_eq_true_eq] at h1 h2 ⊢
  exact le_trans h2 h1

theorem descending_total :
    ∀ (a b : String), ((fun a b => decide (b ≤ a)) a b ||
      (fun a b => decide (b ≤ a)) b a) = true := by
  intro a b
  rcases le_total a b with h | h <;> simp [h]

/-- C9: `get_latest_snapshot` returns `none` for a missing directory or no
snapshot files, the unique snapshot when exactly one matches, and with at
least two (distinct) snapshot files it returns the second-greatest filename:
a member `s` that is not the maximum `m` yet dominates every other member. -/
theorem C9_get_latest_snapshot_spec (dirListing : Option (List String)) :
    (get_latest_snapshot none = none) ∧
    (∀ files, dirListing = some files → files.filter snapFilterFn = [] →
      get_latest_snapshot dirListing = none) ∧
    (∀ files s, dirListing = some files → files.filter snapFilterFn = [s] →
      get_latest_snapshot dirListing = some s) ∧
    (∀ files, dirListing = some files → (files.filter snapFilterFn).Nodup →
      2 ≤ (files.filter snapFilterFn).length →
      ∃ s m, get_latest_snapshot dirListing = some s ∧
        m ∈ files.filter snapFilterFn ∧ s ∈ files.filter snapFilterFn ∧ s ≠ m ∧
        (∀ f ∈ files.filter snapFilterFn, f ≤ m) ∧
        (∀ f ∈ files.filter snapFilterFn, f ≠ m → f ≤ s)) := by
  refine ⟨rfl, ?_, ?_, ?_⟩
  · rintro files rfl hempty
    simp [get_latest_snapshot, hempty]
  · rintro files s rfl hsingle
    have hms : [s].mergeSort (fun a b => decide (b ≤ a)) = [s] :=
      List.perm_singleton.mp (List.mergeSort_perm [s] _)
    simp [get_latest_snapshot, hsingle, hms]
  · rintro files rfl hnd h2
    have hperm := List.mergeSort_perm (files.filter snapFilterFn)
      (fun a b => decide (b ≤ a))
    have hsorted := List.sorted_mergeSort descending_trans descending_total
      (files.filter snapFilterFn)
    have hlen : ((files.filter snapFilterFn).mergeSort
        (fun a b => decide (b ≤ a))).length = (files.filter snapFilterFn).length :=
      hperm.length_eq
    have h1lt : 1 < ((files.filter snapFilterFn).mergeSort
        (fun a b => decide (b ≤ a))).length := by omega
    have h0lt : 0 < ((files.filter snapFilterFn).mergeSort
        (fun a b => decide (b ≤ a))).length := by omega
    have hnds : ((files.filter snapFilterFn).mergeSort
        (fun a b => decide (b ≤ a))).Nodup := hperm.nodup_iff.mpr hnd
    have hne : (files.filter snapFilterFn).isEmpty = false := by
      cases hf : files.filter snapFilterFn with
      | nil => rw [hf] at h2; simp at h2
      | cons a l => rfl
    refine ⟨((files.filter snapFilterFn).mergeSort (fun a b => decide (b ≤ a)))[1],
            ((files.filter snapFilterFn).mergeSort (fun a b => decide (b ≤ a)))[0],
            ?_, ?_, ?_, ?_, ?_, ?_⟩
    · show get_latest_snapshot (some files) = _
      show (if (files.filter snapFilterFn).isEmpty = true then none
        else
          if 1 < ((files.filter snapFilterFn).mergeSort
              (fun a b => decide (b ≤ a))).length then
            ((files.filter snapFilterFn).mergeSort (fun a b => decide (b ≤ a)))[1]?
          else ((files.filter snapFilterFn).mergeSort
              (fun a b => decide (b ≤ a)))[0]?) = _
      rw [hne]
      simp only [Bool.false_eq_true, if_false]
      rw [if_pos h1lt]
      exact List.getElem?_eq_getElem h1lt
    · exact hperm.subset (List.getElem_mem h0lt)
    · exact hperm.subset (List.getElem_mem h1lt)
    · have := List.pairwise_iff_getElem.mp hnds 0 1 h0lt h1lt (by omega)
      exact this.symm
    · intro f hf
      obtain ⟨j, hj, rfl⟩ := List.getElem_of_mem ((hperm.mem_iff).mpr hf)
      by_cases hj0 : j = 0
      · subst hj0; exact le_refl _
      · have := List.pairwise_iff_getElem.mp hsorted 0 j h0lt hj (by omega)
        simpa using this
    · intro f hf hfm
      obtain ⟨j, hj, rfl⟩ := List.getElem_of_mem ((hperm.mem_iff).mpr hf)
      by_cases hj0 : j = 0
      · subst hj0
        exact absurd rfl hfm
      · by_cases hj1 : j = 1
        · subst hj1; exact le_refl _
        · have := List.pairwise_iff_getElem.mp hsorted 1 j h1lt hj (by omega)
          simpa using this

/-- Witness for C9: a directory holding three snapshot files and one foreign
file; the theorem yields the second-most-recent snapshot. -/
theorem C9_get_latest_snapshot_spec_witness :
    ∃ s m, get_latest_snapshot (some ["snapshot_20240103_101010.json", "readme.txt",
        "snapshot_20240101_101010.json", "snapshot_20240102_101010.json"]) = some s ∧
      m ∈ ["snapshot_20240103_101010.json", "readme.txt",
           "snapshot_20240101_101010.json", "snapshot_20240102_101010.json"].filter snapFilterFn ∧
      s ∈ ["snapshot_20240103_101010.json", "readme.txt",
           "snapshot_20240101_101010.json", "snapshot_20240102_101010.json"].filter snapFilterFn ∧
      s ≠ m ∧
      (∀ f ∈ ["snapshot_20240103_101010.json", "readme.txt",
              "snapshot_20240101_101010.json", "snapshot_20240102_101010.json"].filter snapFilterFn,
        f ≤ m) ∧
      (∀ f ∈ ["snapshot_20240103_101010.json", "readme.txt",
              "snapshot_20240101_101010.json", "snapshot_20240102_101010.json"].filter snapFilterFn,
        f ≠ m → f ≤ s) :=
  (C9_get_latest_snapshot_spec (some ["snapshot_20240103_101010.json", "readme.txt",
      "snapshot_20240101_101010.json", "snapshot_20240102_101010.json"])).2.2.2
    _ rfl (by decide) (by decide)
